import Mathlib

/-!
Verification of the extension-dispatch data-ingestion module
(`src/ingest_data.py`).

The module is shallowly embedded:

* a filesystem is an association list from absolute paths to file data,
* a path is its list of components, with Python `pathlib` semantics for
  `name` / `parent` / `stem` / `suffix`,
* `pandas.DataFrame` is a column list plus a list of rows of optional
  cells (`none` models `NaN`); `pandas.read_csv` and `pandas.concat` are
  modelled from the spec since the pandas library is not part of the
  repository,
* a zip archive's bytes are modelled as the list of its entries
  (relative path plus data), so `zipfile.ZipFile`/`extractall` become
  filesystem updates,
* exceptions become an `Except` error type; recursion through nested
  archives is bounded by an explicit fuel parameter (the Python code has
  no bound; every theorem below quantifies over or fixes a sufficient
  fuel).
-/

/-- Splits a character list on a separator character; mirrors splitting a
text file into lines or a line into comma-separated cells. -/
def splitOnChar (sep : Char) : List Char → List (List Char)
  | [] => [[]]
  | c :: cs =>
    let r := splitOnChar sep cs
    if c = sep then [] :: r
    else
      match r with
      | [] => [[c]]
      | g :: gs => (c :: g) :: gs

/-- Index of the last occurrence of `'.'` in a character list, if any;
mirrors Python `str.rfind('.')`. -/
def lastDotPos : List Char → Option Nat
  | [] => none
  | c :: cs =>
    match lastDotPos cs with
    | some j => some (j + 1)
    | none => if c = '.' then some 0 else none

/-- Python `pathlib.PurePath.suffix` on a file name: the final
dot-suffix, empty when the name has no dot, starts with its only dot, or
ends with a dot. -/
def pySuffix (s : String) : String :=
  let cs := s.data
  match lastDotPos cs with
  | some i => if 0 < i ∧ i < cs.length - 1 then String.mk (cs.drop i) else ""
  | none => ""

/-- Python `pathlib.PurePath.stem` on a file name: the name with the
final dot-suffix removed. -/
def pyStem (s : String) : String :=
  let cs := s.data
  match lastDotPos cs with
  | some i => if 0 < i ∧ i < cs.length - 1 then String.mk (cs.take i) else s
  | none => s

/-- A filesystem path, as its list of components; mirrors
`pathlib.Path`. -/
structure PathT where
  components : List String
deriving DecidableEq, Repr

/-- Python `Path.name`: the final component. -/
def PathT.name (p : PathT) : String := p.components.getLast?.getD ""

/-- Python `Path.parent`: the path without its final component. -/
def PathT.parent (p : PathT) : PathT := ⟨p.components.dropLast⟩

/-- Python `Path.stem`. -/
def PathT.stem (p : PathT) : String := pyStem p.name

/-- Python `Path.suffix`. -/
def PathT.suffix (p : PathT) : String := pySuffix p.name

/-- A tabular result; mirrors `pandas.DataFrame`.  A cell is `none` when
it is `NaN` (as introduced by concatenation of misaligned tables). -/
structure DataFrame where
  cols : List String
  rows : List (List (Option String))
deriving DecidableEq, Repr

/-- Modelled from the spec: `pandas.read_csv` is not part of the
repository; the spec says the delimited-text ingestor "parses a
comma-separated file fully into memory as a table".  The first line is
the header, every further line is a data row, cells are separated by
commas. -/
def read_csv (s : String) : DataFrame :=
  match splitOnChar '\n' s.data with
  | [] => ⟨[], []⟩
  | hdr :: rest =>
    ⟨(splitOnChar ',' hdr).map String.mk,
     rest.map (fun line => (splitOnChar ',' line).map (fun cell => some (String.mk cell)))⟩

/-- Union of column lists in first-seen order; mirrors how
`pandas.concat` combines the columns of its inputs. -/
def addCols (acc cs : List String) : List String :=
  cs.foldl (fun a c => if c ∈ a then a else a ++ [c]) acc

/-- The column list of a concatenation: first-seen union of the inputs'
columns. -/
def concatCols (dfs : List DataFrame) : List String :=
  dfs.foldl (fun a df => addCols a df.cols) []

/-- First index of a column name in a column list. -/
def idxOf? (c : String) : List String → Option Nat
  | [] => none
  | x :: xs => if x = c then some 0 else (idxOf? c xs).map (· + 1)

/-- Re-expresses a row over a new column list, filling absent columns
with `none` (`NaN`); mirrors the column alignment of `pandas.concat`. -/
def reindexRow (oldCols newCols : List String) (row : List (Option String)) :
    List (Option String) :=
  newCols.map (fun c =>
    match idxOf? c oldCols with
    | some i => row.getD i none
    | none => none)

/-- Errors of the embedded module.  `noFilesFound p` is the explicit
`FileNotFoundError` raised by `ZipIngestor.ingest` (its message names the
archive path `p`); `zipOpenError` models `zipfile.ZipFile` failing to
open the path; `readError` models `pandas.read_csv` failing to read the
path; `valueError` models the `ValueError` of `pandas.concat`;
`fuelExhausted` is the artificial recursion bound of the embedding. -/
inductive IngestError where
  | noFilesFound (p : PathT)
  | zipOpenError (p : PathT)
  | readError (p : PathT)
  | valueError
  | fuelExhausted
deriving DecidableEq, Repr

/-- Modelled from the spec and the pandas contract of `pandas.concat`
(not part of the repository): `None` inputs are dropped silently; if all
inputs are `None` (or there are none at all) a `ValueError` is raised;
otherwise the tables are concatenated row-wise in order, columns being
the first-seen union and missing cells `NaN`. -/
def pd_concat (objs : List (Option DataFrame)) : Except IngestError DataFrame :=
  let dfs := objs.filterMap id
  if dfs.isEmpty then .error .valueError
  else
    .ok ⟨concatCols dfs,
         (dfs.map (fun df => df.rows.map (reindexRow df.cols (concatCols dfs)))).flatten⟩

/-- Data stored in a file: raw text, or a zip archive holding a list of
entries (relative path components plus entry data, in archive order). -/
inductive FileData where
  | text (s : String)
  | zip (entries : List (List String × FileData))
deriving Repr

/-- A filesystem: regular files keyed by absolute path, in creation
order (directory enumeration follows this order). -/
abbrev Fs := List (PathT × FileData)

/-- Content of the regular file at a path, if one exists. -/
def getFile (fs : Fs) (p : PathT) : Option FileData :=
  (fs.find? (fun x => decide (x.1 = p))).map (fun x => x.2)

/-- Writes a file, overwriting any existing file at the path. -/
def setFile (fs : Fs) (p : PathT) (d : FileData) : Fs :=
  (fs.filter (fun x => !decide (x.1 = p))) ++ [(p, d)]

/-- Mirrors `zipfile.ZipFile.extractall`: writes every entry of the
archive under the destination directory, in archive order. -/
def extractAll (fs : Fs) (dest : PathT) (entries : List (List String × FileData)) : Fs :=
  entries.foldl (fun acc e => setFile acc ⟨dest.components ++ e.1⟩ e.2) fs

/-- `path.parent / path.stem`: the sibling directory an archive at
`path` is extracted into. -/
def extractedPath (p : PathT) : PathT :=
  ⟨p.parent.components ++ [p.stem]⟩

/-- Whether `p` is strictly below the directory `dir`. -/
def isUnder (dir p : PathT) : Bool :=
  dir.components.isPrefixOf p.components &&
    decide (dir.components.length < p.components.length)

/-- Mirrors `[f for f in dir.glob("**/*") if f.is_file()]`: every
regular file strictly below `dir`, in filesystem order. -/
def globFiles (fs : Fs) (dir : PathT) : List PathT :=
  (fs.filter (fun x => isUnder dir x.1)).map (fun x => x.1)

/-- The behavioural identity of an ingestor; the registry holds one of
`ZipIngestor`, `CSVIngestor`, and the resolver falls back to
`UnsupportedIngestor`. -/
inductive IngestorKind where
  | zipI
  | csvI
  | unsupportedI
deriving DecidableEq, Repr

/-- The static registry `EXTENSION_TO_INGESTOR` from extension string to
ingestor. -/
def EXTENSION_TO_INGESTOR : List (String × IngestorKind) :=
  [(".zip", IngestorKind.zipI), (".csv", IngestorKind.csvI)]

/-- Registry lookup, `EXTENSION_TO_INGESTOR.get(extension)`. -/
def lookupExt (ext : String) : Option IngestorKind :=
  (EXTENSION_TO_INGESTOR.find? (fun kv => decide (kv.1 = ext))).map (fun kv => kv.2)

/-- Result of the resolver: the lines it printed, and the ingestor it
returned. -/
structure ResolutionT where
  printed : List String
  ingestor : IngestorKind
deriving DecidableEq, Repr

/-- `get_ingestor`: dispatches on `path.suffix`; prints a diagnostic
when the extension is not a registry key; returns the registry entry or
the unsupported fallback.  It never raises. -/
def get_ingestor (p : PathT) : ResolutionT :=
  let extension := PathT.suffix p
  let printed :=
    if (lookupExt extension).isSome then []
    else ["Extension " ++ extension ++ " not supported"]
  ⟨printed, (lookupExt extension).getD IngestorKind.unsupportedI⟩

/-- `UnsupportedIngestor.ingest`: the body is `pass`, so it returns
`None` (no table) and leaves the filesystem unchanged. -/
def UnsupportedIngestor.ingest (fs : Fs) (_p : PathT) :
    Except IngestError (Fs × Option DataFrame) :=
  .ok (fs, none)

/-- `CSVIngestor.ingest`: `return pd.read_csv(path)`. -/
def CSVIngestor.ingest (fs : Fs) (p : PathT) :
    Except IngestError (Fs × Option DataFrame) :=
  match getFile fs p with
  | some (FileData.text s) => .ok (fs, some (read_csv s))
  | _ => .error (.readError p)

mutual

/-- `ZipIngestor.ingest`: extracts the archive to the sibling directory
`path.parent / path.stem`, enumerates the regular files below it, raises
`FileNotFoundError` when there are none, otherwise resolves an ingestor
for each file, ingests it, and concatenates the results with
`pd.concat`.  The fuel argument bounds the nesting depth of archives. -/
def ZipIngestor.ingest : Nat → Fs → PathT → Except IngestError (Fs × Option DataFrame)
  | 0, _, _ => .error .fuelExhausted
  | fuel + 1, fs, p =>
    match getFile fs p with
    | some (FileData.zip entries) =>
      let fs1 := extractAll fs (extractedPath p) entries
      let found_files := globFiles fs1 (extractedPath p)
      if found_files.isEmpty then
        .error (.noFilesFound p)
      else
        match ingestMany fuel fs1 found_files with
        | .error e => .error e
        | .ok (fs2, ingested) =>
          match pd_concat ingested with
          | .error e => .error e
          | .ok df => .ok (fs2, some df)
    | _ => .error (.zipOpenError p)
termination_by fuel _ _ => (fuel, 0)

/-- `get_ingestor(file).ingest(file)`: resolves the ingestor for a path
and runs it. -/
def ingestFile : Nat → Fs → PathT → Except IngestError (Fs × Option DataFrame)
  | fuel, fs, p =>
    match (get_ingestor p).ingestor with
    | IngestorKind.zipI => ZipIngestor.ingest fuel fs p
    | IngestorKind.csvI => CSVIngestor.ingest fs p
    | IngestorKind.unsupportedI => UnsupportedIngestor.ingest fs p
termination_by fuel _ _ => (fuel, 1)

/-- The list comprehension
`[get_ingestor(file).ingest(file) for file in found_files]`, left to
right, threading the filesystem. -/
def ingestMany : Nat → Fs → List PathT → Except IngestError (Fs × List (Option DataFrame))
  | _, fs, [] => .ok (fs, [])
  | fuel, fs, q :: qs =>
    match ingestFile fuel fs q with
    | .error e => .error e
    | .ok (fs1, df) =>
      match ingestMany fuel fs1 qs with
      | .error e => .error e
      | .ok (fs2, dfs) => .ok (fs2, df :: dfs)
termination_by fuel _ qs => (fuel, qs.length + 2)

end

/-- An ingestor's Python class. -/
inductive IngestorClass where
  | zipC
  | csvC
  | unsupportedC
deriving DecidableEq, Repr

/-- A Python ingestor object: its class plus its object identity.  Two
calls of a constructor allocate distinct identities. -/
structure IngestorInstance where
  cls : IngestorClass
  objId : Nat
deriving DecidableEq, Repr

/-- The registry at instance level: `EXTENSION_TO_INGESTOR` is built
once at module import, with one `ZipIngestor()` and one `CSVIngestor()`
allocation (identities 0 and 1). -/
def registryInstances : List (String × IngestorInstance) :=
  [(".zip", ⟨IngestorClass.zipC, 0⟩), (".csv", ⟨IngestorClass.csvC, 1⟩)]

/-- `get_ingestor` at instance level: `nextId` is the allocator state.
`EXTENSION_TO_INGESTOR.get(extension, UnsupportedIngestor())` evaluates
`UnsupportedIngestor()` on every call, allocating a fresh instance, and
returns it whenever the extension is not a registry key. -/
def get_ingestor_inst (nextId : Nat) (p : PathT) : Nat × IngestorInstance :=
  let extension := PathT.suffix p
  let fresh : IngestorInstance := ⟨IngestorClass.unsupportedC, nextId⟩
  (nextId + 1,
   ((registryInstances.find? (fun kv => decide (kv.1 = extension))).map
      (fun kv => kv.2)).getD fresh)

/-- Whether file data is raw text. -/
def FileData.isTextData : FileData → Bool
  | .text _ => true
  | .zip _ => false

/-- Whether file data is a zip archive. -/
def FileData.isZipData : FileData → Bool
  | .text _ => false
  | .zip _ => true

/-- The raw text of file data (empty for an archive). -/
def FileData.textOf : FileData → String
  | .text s => s
  | .zip _ => ""

/-- The name of a single-component archive entry. -/
def entryName (e : List String × FileData) : String := e.1.headD ""

/-- The final name component of an archive entry with a possibly nested
relative path. -/
def entryLastName (e : List String × FileData) : String := e.1.getLast?.getD ""

/-- The reference table of a text entry: its content parsed as CSV. -/
def entryTable (e : List String × FileData) : DataFrame := read_csv e.2.textOf

/-- Shape of a well-formed archive entry: a single name component whose
extension matches its data (`.csv` text or `.zip` archive). -/
def wfEntryShape (e : List String × FileData) : Bool :=
  decide (e.1.length = 1) &&
  ((decide (pySuffix (entryName e) = ".csv") && e.2.isTextData) ||
   (decide (pySuffix (entryName e) = ".zip") && e.2.isZipData))

/-- A CSV text whose parsed table has exactly the columns `c` and
rectangular rows. -/
def csvCheck (c : List String) (s : String) : Bool :=
  decide ((read_csv s).cols = c) &&
  (read_csv s).rows.all (fun r => decide (r.length = c.length))

/-- No clashes among entry names and the directory names zip entries
extract into. -/
def wfNames (names : List String) : Bool :=
  decide ((names ++ (names.filter (fun n => decide (pySuffix n = ".zip"))).map pyStem).Nodup)

/-- Well-formed file data whose zip nesting is below the fuel bound:
text files parse to tables with columns `c` and rectangular rows;
archives are non-empty, have clash-free single-component entry names,
and well-formed entry data. -/
def wfDataF : Nat → List String → FileData → Bool
  | _, c, FileData.text s => csvCheck c s
  | 0, _, FileData.zip _ => false
  | fuel + 1, c, FileData.zip entries =>
    (!entries.isEmpty) && wfNames (entries.map entryName) &&
    entries.all (fun e => wfEntryShape e && wfDataF fuel c e.2)

mutual

/-- The rows of all transitively contained text files of file data, in
first-seen archive order. -/
def leafRows : FileData → List (List (Option String))
  | FileData.text s => (read_csv s).rows
  | FileData.zip entries => leafRowsList entries

/-- The rows of all transitively contained text files of an entry list. -/
def leafRowsList : List (List String × FileData) → List (List (Option String))
  | [] => []
  | (_, d) :: es => leafRows d ++ leafRowsList es

end

/-- `ZipIngestor.ingest` after the extraction step: enumerate, check
non-emptiness, ingest each file, concatenate. -/
def zipPostExtraction (fuel : Nat) (fs1 : Fs) (p : PathT) :
    Except IngestError (Fs × Option DataFrame) :=
  let found_files := globFiles fs1 (extractedPath p)
  if found_files.isEmpty then
    .error (.noFilesFound p)
  else
    match ingestMany fuel fs1 found_files with
    | .error e => .error e
    | .ok (fs2, ingested) =>
      match pd_concat ingested with
      | .error e => .error e
      | .ok df => .ok (fs2, some df)

/-- Modelled from the spec: the reference comma-separated parse of a
whole file loaded fully into memory — first line the header, each
further line one data row, cells split on commas. -/
def referenceParse (s : String) : DataFrame :=
  let lines := splitOnChar '\n' s.data
  let header := (lines.headD []).map id
  let dataLines := lines.drop 1
  ⟨(splitOnChar ',' header).map String.mk,
   dataLines.map (fun line => (splitOnChar ',' line).map (fun cell => some (String.mk cell)))⟩

/-- The header cells of a CSV text: its first line split on commas. -/
def headerCells (s : String) : List String :=
  (splitOnChar ',' ((splitOnChar '\n' s.data).headD [])).map String.mk

/-- The number of data lines of a CSV text: all lines but the first. -/
def dataLineCount (s : String) : Nat :=
  (splitOnChar '\n' s.data).length - 1

/-- Decoding of `List.isPrefixOf` into an explicit tail. -/
theorem isPrefixOf_eq_true_iff {l m : List String} :
    l.isPrefixOf m = true ↔ ∃ t, m = l ++ t := by
  rw [List.isPrefixOf_iff_prefix]
  constructor
  · rintro ⟨t, ht⟩
    exact ⟨t, ht.symm⟩
  · rintro ⟨t, ht⟩
    exact ⟨t, ht.symm⟩

/-- Decoding of `isUnder` into an explicit non-empty relative tail. -/
theorem isUnder_iff {D q : PathT} :
    isUnder D q = true ↔ ∃ t, t ≠ [] ∧ q.components = D.components ++ t := by
  unfold isUnder
  rw [Bool.and_eq_true, isPrefixOf_eq_true_iff, decide_eq_true_eq]
  constructor
  · rintro ⟨⟨t, ht⟩, hlen⟩
    refine ⟨t, ?_, ht⟩
    rintro rfl
    simp [ht] at hlen
  · rintro ⟨t, htne, ht⟩
    refine ⟨⟨t, ht⟩, ?_⟩
    rw [ht, List.length_append]
    have : 0 < t.length := List.length_pos.mpr htne
    omega

/-- A path extended by a non-empty tail is under the original. -/
theorem isUnder_append {D : PathT} {t : List String} (ht : t ≠ []) :
    isUnder D ⟨D.components ++ t⟩ = true :=
  isUnder_iff.mpr ⟨t, ht, rfl⟩

/-- Being-under is transitive. -/
theorem isUnder_trans {a b c : PathT} (h1 : isUnder a b = true)
    (h2 : isUnder b c = true) : isUnder a c = true := by
  rcases isUnder_iff.mp h1 with ⟨t, htne, ht⟩
  rcases isUnder_iff.mp h2 with ⟨u, hune, hu⟩
  refine isUnder_iff.mpr ⟨t ++ u, by simp [htne], ?_⟩
  rw [hu, ht, List.append_assoc]

/-- A path at most as long as the directory is not under it. -/
theorem not_isUnder_of_length_le {D p : PathT}
    (h : p.components.length ≤ D.components.length) : isUnder D p = false := by
  by_contra hc
  rcases isUnder_iff.mp (by simpa using hc) with ⟨t, htne, ht⟩
  rw [ht, List.length_append] at h
  have : 0 < t.length := List.length_pos.mpr htne
  omega

/-- The extraction directory of a path written as directory plus name. -/
theorem extractedPath_concat (ds : List String) (n : String) :
    extractedPath ⟨ds ++ [n]⟩ = ⟨ds ++ [pyStem n]⟩ := by
  unfold extractedPath PathT.parent PathT.stem PathT.name
  simp [List.dropLast_concat]

/-- The suffix of a path written as directory plus name. -/
theorem suffix_mk_concat (ds : List String) (n : String) :
    PathT.suffix ⟨ds ++ [n]⟩ = pySuffix n := by
  unfold PathT.suffix PathT.name
  simp

/-- A lookup that succeeds on the left part of a filesystem succeeds on
the whole. -/
theorem getFile_append_left {fs gs : Fs} {p : PathT} {d : FileData}
    (h : getFile fs p = some d) : getFile (fs ++ gs) p = some d := by
  unfold getFile at h ⊢
  rcases hf : fs.find? (fun x => decide (x.1 = p)) with _ | x
  · rw [hf] at h
    simp at h
  · have hfind : (fs ++ gs).find? (fun x => decide (x.1 = p)) = some x := by
      rw [List.find?_append, hf]
      rfl
    rw [hfind]
    rw [hf] at h
    exact h

/-- A lookup missing the left part of a filesystem falls through to the
right part. -/
theorem getFile_append_right {fs gs : Fs} {p : PathT}
    (h : getFile fs p = none) : getFile (fs ++ gs) p = getFile gs p := by
  unfold getFile at h ⊢
  rcases hf : fs.find? (fun x => decide (x.1 = p)) with _ | x
  · rw [List.find?_append, hf]
    rfl
  · rw [hf] at h
    simp at h

/-- Absence of a file is absence of its key. -/
theorem getFile_eq_none_iff {fs : Fs} {p : PathT} :
    getFile fs p = none ↔ ∀ x ∈ fs, x.1 ≠ p := by
  unfold getFile
  rw [Option.map_eq_none', List.find?_eq_none]
  constructor
  · intro h x hx
    have := h x hx
    simpa using this
  · intro h x hx
    simpa using h x hx

/-- Writing a fresh path appends the file at the end. -/
theorem setFile_fresh {fs : Fs} {p : PathT} {d : FileData}
    (h : getFile fs p = none) : setFile fs p d = fs ++ [(p, d)] := by
  unfold setFile
  have hall := getFile_eq_none_iff.mp h
  have : fs.filter (fun x => !decide (x.1 = p)) = fs := by
    apply List.filter_eq_self.mpr
    intro a ha
    simpa using hall a ha
  rw [this]

/-- The files an extraction writes, keyed under the destination. -/
def entryPaths (D : PathT) (entries : List (List String × FileData)) : Fs :=
  entries.map (fun e => (⟨D.components ++ e.1⟩, e.2))

/-- Lookup in a one-file filesystem at a different key misses. -/
theorem getFile_singleton_ne {p q : PathT} {d : FileData} (h : q ≠ p) :
    getFile [(q, d)] p = none := by
  unfold getFile
  simp [List.find?, h]

/-- Extraction into fresh target paths is a plain append of the entry
files in archive order. -/
theorem extractAll_fresh {D : PathT} :
    ∀ (entries : List (List String × FileData)) (fs : Fs),
      (∀ e ∈ entries, getFile fs ⟨D.components ++ e.1⟩ = none) →
      (entries.map Prod.fst).Nodup →
      extractAll fs D entries = fs ++ entryPaths D entries := by
  intro entries
  induction entries with
  | nil => intro fs _ _; simp [extractAll, entryPaths]
  | cons e0 es ih =>
    intro fs hfresh hnd
    have h0 : getFile fs ⟨D.components ++ e0.1⟩ = none := hfresh e0 (by simp)
    have hstep : extractAll fs D (e0 :: es) =
        extractAll (fs ++ [(⟨D.components ++ e0.1⟩, e0.2)]) D es := by
      unfold extractAll
      rw [List.foldl_cons]
      rw [setFile_fresh h0]
    rw [hstep]
    have hnd1 : (e0.1 :: es.map Prod.fst).Nodup := by rw [List.map_cons] at hnd; exact hnd
    have hnd' : (es.map Prod.fst).Nodup := (List.nodup_cons.mp hnd1).2
    have hnotmem : e0.1 ∉ es.map Prod.fst := (List.nodup_cons.mp hnd1).1
    have hfresh' : ∀ e ∈ es, getFile (fs ++ [(⟨D.components ++ e0.1⟩, e0.2)])
        ⟨D.components ++ e.1⟩ = none := by
      intro e he
      have h1 : getFile fs ⟨D.components ++ e.1⟩ = none := hfresh e (by simp [he])
      rw [getFile_append_right h1]
      apply getFile_singleton_ne
      intro hc
      apply hnotmem
      have hcomp : D.components ++ e0.1 = D.components ++ e.1 := congrArg PathT.components hc
      have : e0.1 = e.1 := by
        exact (List.append_right_inj D.components).mp hcomp
      rw [this]
      exact List.mem_map_of_mem Prod.fst he
    rw [ih _ hfresh' hnd']
    simp [entryPaths, List.append_assoc]

/-- Enumeration distributes over filesystem append. -/
theorem globFiles_append {fs gs : Fs} {D : PathT} :
    globFiles (fs ++ gs) D = globFiles fs D ++ globFiles gs D := by
  unfold globFiles
  rw [List.filter_append, List.map_append]

/-- A directory enumerates to nothing exactly when no file is under it. -/
theorem globFiles_eq_nil_iff {fs : Fs} {D : PathT} :
    globFiles fs D = [] ↔ ∀ x ∈ fs, isUnder D x.1 = false := by
  unfold globFiles
  rw [List.map_eq_nil_iff, List.filter_eq_nil_iff]
  constructor
  · intro h x hx
    have := h x hx
    simpa using this
  · intro h x hx
    simp [h x hx]

/-- Enumerating the destination directory over just-extracted entry
files yields their paths in archive order. -/
theorem globFiles_entryPaths {D : PathT} {entries : List (List String × FileData)}
    (h : ∀ e ∈ entries, e.1 ≠ []) :
    globFiles (entryPaths D entries) D =
      entries.map (fun e => ⟨D.components ++ e.1⟩) := by
  unfold globFiles entryPaths
  rw [List.filter_map]
  have : (entries.filter
      ((fun x => isUnder D x.1) ∘ (fun e => (⟨D.components ++ e.1⟩, e.2)))) = entries := by
    apply List.filter_eq_self.mpr
    intro e he
    simpa using isUnder_append (h e he)
  rw [this, List.map_map]
  apply List.map_congr_left
  intro e _
  rfl

/-- Every enumerated file is under the directory. -/
theorem mem_globFiles {q : PathT} {fs : Fs} {D : PathT}
    (h : q ∈ globFiles fs D) : isUnder D q = true := by
  unfold globFiles at h
  rcases List.mem_map.mp h with ⟨x, hx, rfl⟩
  exact (List.mem_filter.mp hx).2

/-- No file is present under a directory that enumerates to nothing. -/
theorem getFile_none_of_under {fs : Fs} {D t : PathT}
    (hfresh : ∀ x ∈ fs, isUnder D x.1 = false) (h : isUnder D t = true) :
    getFile fs t = none := by
  apply getFile_eq_none_iff.mpr
  intro x hx hc
  have := hfresh x hx
  rw [hc, h] at this
  simp at this

/-- Lookup of an entry's path among just-extracted entry files returns
its data. -/
theorem getFile_entryPaths {D : PathT} :
    ∀ {entries : List (List String × FileData)} {e : List String × FileData},
      (entries.map Prod.fst).Nodup → e ∈ entries →
      getFile (entryPaths D entries) ⟨D.components ++ e.1⟩ = some e.2 := by
  intro entries
  induction entries with
  | nil => intro e _ he; simp at he
  | cons e0 es ih =>
    intro e hnd he
    have hnd1 : (e0.1 :: es.map Prod.fst).Nodup := by rw [List.map_cons] at hnd; exact hnd
    have hnd0 : e0.1 ∉ es.map Prod.fst := (List.nodup_cons.mp hnd1).1
    have hnd' : (es.map Prod.fst).Nodup := (List.nodup_cons.mp hnd1).2
    rcases List.mem_cons.mp he with rfl | hmem
    · unfold entryPaths getFile
      simp [List.find?]
    · have hne : (⟨D.components ++ e0.1⟩ : PathT) ≠ ⟨D.components ++ e.1⟩ := by
        intro hc
        apply hnd0
        have hcomp : D.components ++ e0.1 = D.components ++ e.1 := congrArg PathT.components hc
        have : e0.1 = e.1 := (List.append_right_inj D.components).mp hcomp
        rw [this]
        exact List.mem_map_of_mem Prod.fst hmem
      have hleft : getFile [(⟨D.components ++ e0.1⟩, e0.2)] ⟨D.components ++ e.1⟩ = none :=
        getFile_singleton_ne hne
      have : entryPaths D (e0 :: es) =
          [(⟨D.components ++ e0.1⟩, e0.2)] ++ entryPaths D es := by
        simp [entryPaths]
      rw [this, getFile_append_right hleft]
      exact ih hnd' hmem

/-- The resolver's returned ingestor is the registry lookup of the
path's suffix, with the unsupported fallback. -/
theorem get_ingestor_kind (p : PathT) :
    (get_ingestor p).ingestor =
      (lookupExt (PathT.suffix p)).getD IngestorKind.unsupportedI := rfl

/-- Registry content at `.csv`. -/
theorem lookupExt_csv : lookupExt ".csv" = some IngestorKind.csvI := by decide

/-- Registry content at `.zip`. -/
theorem lookupExt_zip : lookupExt ".zip" = some IngestorKind.zipI := by decide

/-- Out of fuel, the archive ingestor reports the artificial bound. -/
theorem ZipIngestor.ingest_zero (fs : Fs) (p : PathT) :
    ZipIngestor.ingest 0 fs p = .error .fuelExhausted := by
  simp [ZipIngestor.ingest]

/-- With fuel available, the archive ingestor first extracts the
archive, then runs the rest of its body on the extended filesystem. -/
theorem ZipIngestor.ingest_succ {fuel : Nat} {fs : Fs} {p : PathT}
    {entries : List (List String × FileData)}
    (h : getFile fs p = some (FileData.zip entries)) :
    ZipIngestor.ingest (fuel + 1) fs p =
      zipPostExtraction fuel (extractAll fs (extractedPath p) entries) p := by
  rw [ZipIngestor.ingest, h]
  rfl

/-- Opening a path with no zip data fails. -/
theorem ZipIngestor.ingest_not_zip {fuel : Nat} {fs : Fs} {p : PathT}
    (h : ∀ entries, getFile fs p ≠ some (FileData.zip entries)) :
    ZipIngestor.ingest (fuel + 1) fs p = .error (.zipOpenError p) := by
  rw [ZipIngestor.ingest]
  rcases hg : getFile fs p with _ | d
  · rfl
  · cases d with
    | text s => rfl
    | zip entries => exact absurd hg (h entries)

/-- Dispatch step on a path the resolver maps to the CSV ingestor. -/
theorem ingestFile_csv {fuel : Nat} {fs : Fs} {q : PathT}
    (h : (get_ingestor q).ingestor = IngestorKind.csvI) :
    ingestFile fuel fs q = CSVIngestor.ingest fs q := by
  rw [ingestFile, h]

/-- Dispatch step on a path the resolver maps to the zip ingestor. -/
theorem ingestFile_zip {fuel : Nat} {fs : Fs} {q : PathT}
    (h : (get_ingestor q).ingestor = IngestorKind.zipI) :
    ingestFile fuel fs q = ZipIngestor.ingest fuel fs q := by
  rw [ingestFile, h]

/-- Dispatch step on a path the resolver maps to the unsupported
ingestor. -/
theorem ingestFile_unsupported {fuel : Nat} {fs : Fs} {q : PathT}
    (h : (get_ingestor q).ingestor = IngestorKind.unsupportedI) :
    ingestFile fuel fs q = .ok (fs, none) := by
  rw [ingestFile, h]
  rfl

/-- Ingesting no files leaves the filesystem unchanged. -/
theorem ingestMany_nil (fuel : Nat) (fs : Fs) :
    ingestMany fuel fs [] = .ok (fs, []) := by
  rw [ingestMany]

/-- One step of the per-file ingestion list. -/
theorem ingestMany_cons (fuel : Nat) (fs : Fs) (q : PathT) (qs : List PathT) :
    ingestMany fuel fs (q :: qs) =
      match ingestFile fuel fs q with
      | .error e => .error e
      | .ok (fs1, df) =>
        match ingestMany fuel fs1 qs with
        | .error e => .error e
        | .ok (fs2, dfs) => .ok (fs2, df :: dfs) := by
  rw [ingestMany]

/-- The table the CSV ingestor would produce at a path, if any. -/
def csvTableAt (fs : Fs) (q : PathT) : Option DataFrame :=
  match getFile fs q with
  | some (FileData.text s) => some (read_csv s)
  | _ => none

/-- The CSV ingestor returns the parsed table of the text file at the
path and does not change the filesystem. -/
theorem CSVIngestor.ingest_text {fs : Fs} {q : PathT}
    (h : (csvTableAt fs q).isSome) :
    CSVIngestor.ingest fs q = .ok (fs, csvTableAt fs q) := by
  unfold csvTableAt at h
  unfold CSVIngestor.ingest csvTableAt
  rcases hg : getFile fs q with _ | d
  · rw [hg] at h
    simp at h
  · cases d with
    | text s => simp
    | zip entries =>
      rw [hg] at h
      simp at h

/-- Ingesting a list of paths that all resolve to the CSV ingestor
reads each file and leaves the filesystem unchanged. -/
theorem ingestMany_csv {fuel : Nat} :
    ∀ {qs : List PathT} {fs : Fs},
      (∀ q ∈ qs, (get_ingestor q).ingestor = IngestorKind.csvI ∧
        (csvTableAt fs q).isSome) →
      ingestMany fuel fs qs = .ok (fs, qs.map (csvTableAt fs)) := by
  intro qs
  induction qs with
  | nil => intro fs _; simp [ingestMany_nil]
  | cons q qs ih =>
    intro fs h
    have h0 := h q (by simp)
    have hrest := ih (fun r hr => h r (by simp [hr]))
    rw [ingestMany_cons, ingestFile_csv h0.1, CSVIngestor.ingest_text h0.2]
    simp [hrest]

/-- Ingesting a list of paths that all resolve to the unsupported
ingestor yields `None` for each and leaves the filesystem unchanged. -/
theorem ingestMany_unsupported {fuel : Nat} :
    ∀ {qs : List PathT} {fs : Fs},
      (∀ q ∈ qs, (get_ingestor q).ingestor = IngestorKind.unsupportedI) →
      ingestMany fuel fs qs = .ok (fs, qs.map (fun _ => (none : Option DataFrame))) := by
  intro qs
  induction qs with
  | nil => intro fs _; simp [ingestMany_nil]
  | cons q qs ih =>
    intro fs h
    have hrest := @ih fs (fun r hr => h r (by simp [hr]))
    rw [ingestMany_cons, ingestFile_unsupported (h q (by simp))]
    simp [hrest]

/-- Dropping the `some` wrappers of an all-`some` list. -/
theorem filterMap_id_map_some (ts : List DataFrame) :
    (ts.map some).filterMap id = ts := by
  induction ts with
  | nil => rfl
  | cons t ts ih => simp [ih]

/-- `pandas.concat` on present tables: first-seen union of columns,
rows re-expressed over them and concatenated in order. -/
theorem pd_concat_map_some {ts : List DataFrame} (h : ts ≠ []) :
    pd_concat (ts.map some) =
      .ok ⟨concatCols ts,
           (ts.map (fun t => t.rows.map (reindexRow t.cols (concatCols ts)))).flatten⟩ := by
  unfold pd_concat
  rw [filterMap_id_map_some]
  simp [h]

/-- `pandas.concat` on inputs that are all `None` raises `ValueError`. -/
theorem pd_concat_all_none {objs : List (Option DataFrame)}
    (h : ∀ x ∈ objs, x = none) : pd_concat objs = .error .valueError := by
  unfold pd_concat
  have : objs.filterMap id = [] := by
    rw [List.filterMap_eq_nil_iff]
    intro a ha
    simpa using h a ha
  rw [this]
  rfl

/-- The name of a path extended by a non-empty relative tail is the
tail's last component. -/
theorem PathT.name_append_tail {ds t : List String} (ht : t ≠ []) :
    PathT.name ⟨ds ++ t⟩ = t.getLast?.getD "" := by
  unfold PathT.name
  rw [List.getLast?_append_of_ne_nil _ ht]

/-- The suffix of a path extended by a non-empty relative tail. -/
theorem PathT.suffix_append_tail {ds t : List String} (ht : t ≠ []) :
    PathT.suffix ⟨ds ++ t⟩ = pySuffix (t.getLast?.getD "") := by
  unfold PathT.suffix
  rw [PathT.name_append_tail ht]

/-- Extracting a fresh archive appends exactly the entry files, and the
following enumeration lists their paths in archive order. -/
theorem zip_extract_setup {fs : Fs} {p : PathT} {entries : List (List String × FileData)}
    (hpaths : ∀ e ∈ entries, e.1 ≠ [])
    (hnodup : (entries.map Prod.fst).Nodup)
    (hfresh : globFiles fs (extractedPath p) = []) :
    extractAll fs (extractedPath p) entries =
      fs ++ entryPaths (extractedPath p) entries ∧
    globFiles (extractAll fs (extractedPath p) entries) (extractedPath p) =
      entries.map (fun e => ⟨(extractedPath p).components ++ e.1⟩) := by
  have hnofile : ∀ x ∈ fs, isUnder (extractedPath p) x.1 = false :=
    globFiles_eq_nil_iff.mp hfresh
  have hext : extractAll fs (extractedPath p) entries =
      fs ++ entryPaths (extractedPath p) entries := by
    apply extractAll_fresh entries fs _ hnodup
    intro e he
    exact getFile_none_of_under hnofile (isUnder_append (hpaths e he))
  refine ⟨hext, ?_⟩
  rw [hext, globFiles_append, hfresh, globFiles_entryPaths hpaths]
  rfl

/-- C1: for a `.zip` archive containing only `.csv` files (extracted
into a fresh directory), `ZipIngestor.ingest` succeeds and returns the
`pandas.concat` of the contained files' parsed tables in first-seen
enumeration order: the columns are the first-seen union, the rows are
the row-wise concatenation of the files' rows (aligned to those
columns) in that order, and the row count is the sum of the files' row
counts. -/
theorem C1_zip_of_only_csvs
    (fuel : Nat) (fs : Fs) (p : PathT) (entries : List (List String × FileData))
    (hget : getFile fs p = some (FileData.zip entries))
    (hne : entries ≠ [])
    (hpaths : ∀ e ∈ entries, e.1 ≠ [])
    (hnodup : (entries.map Prod.fst).Nodup)
    (hcsv : ∀ e ∈ entries, e.2.isTextData = true ∧ pySuffix (entryLastName e) = ".csv")
    (hfresh : globFiles fs (extractedPath p) = []) :
    ∃ fs2 df, ZipIngestor.ingest (fuel + 1) fs p = .ok (fs2, some df) ∧
      df.cols = concatCols (entries.map entryTable) ∧
      df.rows = ((entries.map entryTable).map
        (fun t => t.rows.map (reindexRow t.cols (concatCols (entries.map entryTable))))).flatten ∧
      df.rows.length = ((entries.map entryTable).map (fun t => t.rows.length)).sum := by
  obtain ⟨hext, hfound⟩ := zip_extract_setup hpaths hnodup hfresh
  have hnofile : ∀ x ∈ fs, isUnder (extractedPath p) x.1 = false :=
    globFiles_eq_nil_iff.mp hfresh
  have htargets : ∀ e ∈ entries,
      (get_ingestor ⟨(extractedPath p).components ++ e.1⟩).ingestor = IngestorKind.csvI ∧
      csvTableAt (extractAll fs (extractedPath p) entries)
        ⟨(extractedPath p).components ++ e.1⟩ = some (entryTable e) := by
    intro e he
    have hkind : (get_ingestor ⟨(extractedPath p).components ++ e.1⟩).ingestor =
        IngestorKind.csvI := by
      rw [get_ingestor_kind, PathT.suffix_append_tail (hpaths e he)]
      have : pySuffix (e.1.getLast?.getD "") = ".csv" := (hcsv e he).2
      rw [this, lookupExt_csv]
      rfl
    have hnone : getFile fs ⟨(extractedPath p).components ++ e.1⟩ = none :=
      getFile_none_of_under hnofile (isUnder_append (hpaths e he))
    have hget1 : getFile (extractAll fs (extractedPath p) entries)
        ⟨(extractedPath p).components ++ e.1⟩ = some e.2 := by
      rw [hext, getFile_append_right hnone]
      exact getFile_entryPaths hnodup he
    obtain ⟨s, hs⟩ : ∃ s, e.2 = FileData.text s := by
      have := (hcsv e he).1
      cases hd : e.2 with
      | text s => exact ⟨s, rfl⟩
      | zip es => rw [hd] at this; simp [FileData.isZipData, FileData.isTextData] at this
    refine ⟨hkind, ?_⟩
    unfold csvTableAt
    rw [hget1, hs]
    unfold entryTable
    rw [hs]
    rfl
  have hmany : ingestMany fuel (extractAll fs (extractedPath p) entries)
      (entries.map (fun e => ⟨(extractedPath p).components ++ e.1⟩)) =
      .ok (extractAll fs (extractedPath p) entries,
           (entries.map (fun e => ⟨(extractedPath p).components ++ e.1⟩)).map
             (csvTableAt (extractAll fs (extractedPath p) entries))) := by
    apply ingestMany_csv
    intro q hq
    rcases List.mem_map.mp hq with ⟨e, he, rfl⟩
    refine ⟨(htargets e he).1, ?_⟩
    rw [(htargets e he).2]
    rfl
  have hmap : (entries.map (fun e => ⟨(extractedPath p).components ++ e.1⟩)).map
      (csvTableAt (extractAll fs (extractedPath p) entries)) =
      (entries.map entryTable).map some := by
    rw [List.map_map, List.map_map]
    apply List.map_congr_left
    intro e he
    have := (htargets e he).2
    simpa using this
  have htne : entries.map entryTable ≠ [] := by
    simpa using hne
  have hmain : ZipIngestor.ingest (fuel + 1) fs p =
      .ok (extractAll fs (extractedPath p) entries,
        some ⟨concatCols (entries.map entryTable),
          ((entries.map entryTable).map
            (fun t => t.rows.map (reindexRow t.cols (concatCols (entries.map entryTable))))).flatten⟩) := by
    rw [ZipIngestor.ingest_succ hget]
    unfold zipPostExtraction
    rw [hfound]
    have hempty : (entries.map (fun e =>
        (⟨(extractedPath p).components ++ e.1⟩ : PathT))).isEmpty = false := by
      simp [hne]
    simp only [hempty, Bool.false_eq_true, if_false]
    rw [hmany]
    simp only []
    rw [hmap, pd_concat_map_some htne]
  refine ⟨_, _, hmain, rfl, rfl, ?_⟩
  simp only [List.length_flatten, List.map_map]
  congr 1
  apply List.map_congr_left
  intro t _
  simp [Function.comp]

/-- The line-splitter never returns an empty list of lines. -/
theorem splitOnChar_ne_nil (sep : Char) (cs : List Char) :
    splitOnChar sep cs ≠ [] := by
  cases cs with
  | nil => simp [splitOnChar]
  | cons c cs =>
    unfold splitOnChar
    by_cases h : c = sep
    · simp [h]
    · simp only [h, if_false]
      rcases splitOnChar sep cs with _ | ⟨g, gs⟩ <;> simp

/-- C3: for every path whose extension is not a registry key,
`get_ingestor` prints the unsupported-extension diagnostic and returns
the unsupported ingestor; it is a total function of the path (it never
raises), always returning the registry lookup of the suffix with the
unsupported fallback, and prints nothing for registered extensions. -/
theorem C3_resolver_diagnostic_unsupported :
    ∀ p : PathT,
      (get_ingestor p).ingestor =
        (lookupExt (PathT.suffix p)).getD IngestorKind.unsupportedI ∧
      (lookupExt (PathT.suffix p) = none →
        (get_ingestor p).printed =
          ["Extension " ++ PathT.suffix p ++ " not supported"] ∧
        (get_ingestor p).ingestor = IngestorKind.unsupportedI) ∧
      (lookupExt (PathT.suffix p) ≠ none → (get_ingestor p).printed = []) := by
  intro p
  refine ⟨rfl, ?_, ?_⟩
  · intro h
    simp [get_ingestor, h]
  · intro h
    rcases hl : lookupExt (PathT.suffix p) with _ | k
    · exact absurd hl h
    · simp [get_ingestor, hl]

/-- Witness for C3 at the unregistered path `a.txt`. -/
theorem C3_resolver_diagnostic_unsupported_witness :
    (get_ingestor ⟨["a.txt"]⟩).printed =
      ["Extension " ++ PathT.suffix ⟨["a.txt"]⟩ ++ " not supported"] ∧
    (get_ingestor ⟨["a.txt"]⟩).ingestor = IngestorKind.unsupportedI :=
  (C3_resolver_diagnostic_unsupported ⟨["a.txt"]⟩).2.1 (by decide)

/-- C4: for every filesystem and path, the unsupported ingestor returns
`None` (no table), leaves the filesystem unchanged, and never raises. -/
theorem C4_unsupported_ingest_none :
    ∀ (fs : Fs) (p : PathT), UnsupportedIngestor.ingest fs p = .ok (fs, none) :=
  fun _ _ => rfl

/-- C5: for every `.csv` text file, `CSVIngestor.ingest` returns exactly
the reference comma-separated parse of the whole file: columns are the
header cells and the row count is the number of data lines. -/
theorem C5_csv_ingest_reference (fs : Fs) (p : PathT) (s : String)
    (h : getFile fs p = some (FileData.text s)) :
    CSVIngestor.ingest fs p = .ok (fs, some (read_csv s)) ∧
    read_csv s = referenceParse s ∧
    (read_csv s).cols = headerCells s ∧
    (read_csv s).rows.length = dataLineCount s := by
  have hsingest : CSVIngestor.ingest fs p = .ok (fs, some (read_csv s)) := by
    unfold CSVIngestor.ingest
    rw [h]
  rcases hsplit : splitOnChar '\n' s.data with _ | ⟨hdr, rest⟩
  · exact absurd hsplit (splitOnChar_ne_nil '\n' s.data)
  · refine ⟨hsingest, ?_, ?_, ?_⟩
    · unfold read_csv referenceParse
      rw [hsplit]
      simp
    · unfold read_csv headerCells
      rw [hsplit]
      simp
    · unfold read_csv dataLineCount
      rw [hsplit]
      simp

/-- Witness for C5 at a concrete two-row CSV file. -/
theorem C5_csv_ingest_reference_witness :
    CSVIngestor.ingest [(⟨["t.csv"]⟩, FileData.text "a,b\n1,2\n3,4")] ⟨["t.csv"]⟩ =
      .ok ([(⟨["t.csv"]⟩, FileData.text "a,b\n1,2\n3,4")],
           some (read_csv "a,b\n1,2\n3,4")) ∧
    read_csv "a,b\n1,2\n3,4" = referenceParse "a,b\n1,2\n3,4" ∧
    (read_csv "a,b\n1,2\n3,4").cols = headerCells "a,b\n1,2\n3,4" ∧
    (read_csv "a,b\n1,2\n3,4").rows.length = dataLineCount "a,b\n1,2\n3,4" :=
  C5_csv_ingest_reference _ _ _ (by rfl)

/-- C7: for every archive, `ZipIngestor.ingest` factors through the
extraction: it first extracts all entries to `path.parent / path.stem`
(the sibling directory named after the archive's stem), and everything
after — enumeration, the empty check, per-file ingestion — runs on the
post-extraction filesystem; and the extraction directory of a path
`dir/name` is `dir/stem-of-name`. -/
theorem C7_extract_then_read (fuel : Nat) (fs : Fs) (p : PathT)
    (entries : List (List String × FileData))
    (h : getFile fs p = some (FileData.zip entries)) :
    ZipIngestor.ingest (fuel + 1) fs p =
      zipPostExtraction fuel (extractAll fs (extractedPath p) entries) p ∧
    ∀ (ds : List String) (n : String), extractedPath ⟨ds ++ [n]⟩ = ⟨ds ++ [pyStem n]⟩ :=
  ⟨ZipIngestor.ingest_succ h, extractedPath_concat⟩

/-- Witness for C7 at a concrete archive path `d/a.zip`. -/
theorem C7_extract_then_read_witness :
    ZipIngestor.ingest 1 [(⟨["d", "a.zip"]⟩, FileData.zip [(["x.csv"], FileData.text "h\n1")])]
        ⟨["d", "a.zip"]⟩ =
      zipPostExtraction 0
        (extractAll [(⟨["d", "a.zip"]⟩, FileData.zip [(["x.csv"], FileData.text "h\n1")])]
          (extractedPath ⟨["d", "a.zip"]⟩) [(["x.csv"], FileData.text "h\n1")])
        ⟨["d", "a.zip"]⟩ ∧
    ∀ (ds : List String) (n : String), extractedPath ⟨ds ++ [n]⟩ = ⟨ds ++ [pyStem n]⟩ :=
  C7_extract_then_read 0 _ _ _ (by rfl)

/-- C9: the resolver dispatches on exactly the path's final suffix,
case-sensitively: a general dispatch equation, and concretely
`data.CSV`, an extensionless `data`, and `data.csv.bak` all resolve to
the unsupported ingestor while `data.csv` resolves to the CSV
ingestor. -/
theorem C9_exact_case_sensitive_suffix :
    (∀ p : PathT, (get_ingestor p).ingestor =
      (lookupExt (PathT.suffix p)).getD IngestorKind.unsupportedI) ∧
    (get_ingestor ⟨["d", "data.CSV"]⟩).ingestor = IngestorKind.unsupportedI ∧
    (get_ingestor ⟨["d", "data"]⟩).ingestor = IngestorKind.unsupportedI ∧
    (get_ingestor ⟨["d", "data.csv.bak"]⟩).ingestor = IngestorKind.unsupportedI ∧
    (get_ingestor ⟨["d", "data.csv"]⟩).ingestor = IngestorKind.csvI :=
  ⟨fun _ => rfl, by decide, by decide, by decide, by decide⟩

/-- C8 counterexample: two successive resolver calls on the same
unregistered path return distinct unsupported instances — the fallback
`UnsupportedIngestor()` is constructed afresh on every call, so the
resolver does not return an identical instance in the unsupported
case. -/
theorem C8_counterexample_fresh_unsupported :
    (get_ingestor_inst 2 ⟨["a.txt"]⟩).2 ≠
      (get_ingestor_inst (get_ingestor_inst 2 ⟨["a.txt"]⟩).1 ⟨["a.txt"]⟩).2 ∧
    (get_ingestor_inst 2 ⟨["a.txt"]⟩).2.cls = IngestorClass.unsupportedC ∧
    (get_ingestor_inst (get_ingestor_inst 2 ⟨["a.txt"]⟩).1 ⟨["a.txt"]⟩).2.cls =
      IngestorClass.unsupportedC := by
  decide

/-- C8 amended: the registry is an immutable constant and the
registered ingestors are long-lived singletons — for a registered
extension the resolver returns the identical registry instance
regardless of allocator state; for an unregistered extension it returns
a freshly allocated unsupported instance identified by the allocator
state of that call. -/
theorem C8_registry_singletons_amended :
    ∀ (n : Nat) (p : PathT) (inst : IngestorInstance),
      ((registryInstances.find? (fun kv => decide (kv.1 = PathT.suffix p))).map
          (fun kv => kv.2) = some inst →
        (get_ingestor_inst n p).2 = inst) ∧
      ((registryInstances.find? (fun kv => decide (kv.1 = PathT.suffix p))).map
          (fun kv => kv.2) = none →
        (get_ingestor_inst n p).2 = ⟨IngestorClass.unsupportedC, n⟩) := by
  intro n p inst
  constructor
  · intro h
    simp only [get_ingestor_inst, h]
    rfl
  · intro h
    simp only [get_ingestor_inst, h]
    rfl

/-- Witness for the amended C8: at allocator states 5 and 7 the
registered `.csv` path resolves to the one registry instance, and an
unregistered path at state 5 gets the fresh instance 5. -/
theorem C8_registry_singletons_amended_witness :
    (get_ingestor_inst 5 ⟨["x.csv"]⟩).2 = ⟨IngestorClass.csvC, 1⟩ ∧
    (get_ingestor_inst 7 ⟨["x.csv"]⟩).2 = ⟨IngestorClass.csvC, 1⟩ ∧
    (get_ingestor_inst 5 ⟨["x.txt"]⟩).2 = ⟨IngestorClass.unsupportedC, 5⟩ :=
  ⟨(C8_registry_singletons_amended 5 ⟨["x.csv"]⟩ ⟨IngestorClass.csvC, 1⟩).1 (by decide),
   (C8_registry_singletons_amended 7 ⟨["x.csv"]⟩ ⟨IngestorClass.csvC, 1⟩).1 (by decide),
   (C8_registry_singletons_amended 5 ⟨["x.txt"]⟩ ⟨IngestorClass.csvC, 1⟩).2 (by decide)⟩

/-- Witness for C1 at a concrete archive of two CSV files. -/
theorem C1_zip_of_only_csvs_witness :
    ∃ fs2 df,
      ZipIngestor.ingest 1
        [(⟨["a.zip"]⟩, FileData.zip
          [(["x.csv"], FileData.text "h\n1"), (["y.csv"], FileData.text "h\n2\n3")])]
        ⟨["a.zip"]⟩ = .ok (fs2, some df) ∧
      df.cols = concatCols
        ([(["x.csv"], FileData.text "h\n1"), (["y.csv"], FileData.text "h\n2\n3")].map entryTable) ∧
      df.rows = (([(["x.csv"], FileData.text "h\n1"),
          (["y.csv"], FileData.text "h\n2\n3")].map entryTable).map
        (fun t => t.rows.map (reindexRow t.cols (concatCols
          ([(["x.csv"], FileData.text "h\n1"),
            (["y.csv"], FileData.text "h\n2\n3")].map entryTable))))).flatten ∧
      df.rows.length = (([(["x.csv"], FileData.text "h\n1"),
          (["y.csv"], FileData.text "h\n2\n3")].map entryTable).map
        (fun t => t.rows.length)).sum :=
  C1_zip_of_only_csvs 0 _ _ _ (by rfl) (by simp) (by decide) (by decide)
    (by decide) (by decide)

/-- C10: for a non-empty archive (with a fresh extraction directory)
none of whose files has a registered extension, every per-file
ingestion yields `None`, and the concluding `pandas.concat` over only
`None` results raises `ValueError` — the archive ingest fails rather
than returning an empty table. -/
theorem C10_unsupported_contents_value_error
    (fuel : Nat) (fs : Fs) (p : PathT) (entries : List (List String × FileData))
    (hget : getFile fs p = some (FileData.zip entries))
    (hne : entries ≠ [])
    (hpaths : ∀ e ∈ entries, e.1 ≠ [])
    (hnodup : (entries.map Prod.fst).Nodup)
    (hunsup : ∀ e ∈ entries, lookupExt (pySuffix (entryLastName e)) = none)
    (hfresh : globFiles fs (extractedPath p) = []) :
    ingestMany fuel (extractAll fs (extractedPath p) entries)
        (globFiles (extractAll fs (extractedPath p) entries) (extractedPath p)) =
      .ok (extractAll fs (extractedPath p) entries,
           (globFiles (extractAll fs (extractedPath p) entries) (extractedPath p)).map
             (fun _ => (none : Option DataFrame))) ∧
    ZipIngestor.ingest (fuel + 1) fs p = .error .valueError := by
  obtain ⟨hext, hfound⟩ := zip_extract_setup hpaths hnodup hfresh
  have hkinds : ∀ q ∈ entries.map (fun e =>
      (⟨(extractedPath p).components ++ e.1⟩ : PathT)),
      (get_ingestor q).ingestor = IngestorKind.unsupportedI := by
    intro q hq
    rcases List.mem_map.mp hq with ⟨e, he, rfl⟩
    rw [get_ingestor_kind, PathT.suffix_append_tail (hpaths e he)]
    have : lookupExt (pySuffix (e.1.getLast?.getD "")) = none := hunsup e he
    rw [this]
    rfl
  have hmany : ingestMany fuel (extractAll fs (extractedPath p) entries)
      (entries.map (fun e => (⟨(extractedPath p).components ++ e.1⟩ : PathT))) =
      .ok (extractAll fs (extractedPath p) entries,
           (entries.map (fun e => (⟨(extractedPath p).components ++ e.1⟩ : PathT))).map
             (fun _ => (none : Option DataFrame))) :=
    ingestMany_unsupported hkinds
  constructor
  · rw [hfound]
    exact hmany
  · rw [ZipIngestor.ingest_succ hget]
    unfold zipPostExtraction
    rw [hfound]
    have hempty : (entries.map (fun e =>
        (⟨(extractedPath p).components ++ e.1⟩ : PathT))).isEmpty = false := by
      simp [hne]
    simp only [hempty, Bool.false_eq_true, if_false]
    rw [hmany]
    simp only []
    rw [pd_concat_all_none]
    intro x hx
    rcases List.mem_map.mp hx with ⟨_, _, rfl⟩
    rfl

/-- Witness for C10 at a concrete archive of one `.txt` file. -/
theorem C10_unsupported_contents_value_error_witness :
    ingestMany 0
        (extractAll [(⟨["u.zip"]⟩, FileData.zip [(["a.txt"], FileData.text "hi")])]
          (extractedPath ⟨["u.zip"]⟩) [(["a.txt"], FileData.text "hi")])
        (globFiles
          (extractAll [(⟨["u.zip"]⟩, FileData.zip [(["a.txt"], FileData.text "hi")])]
            (extractedPath ⟨["u.zip"]⟩) [(["a.txt"], FileData.text "hi")])
          (extractedPath ⟨["u.zip"]⟩)) =
      .ok (extractAll [(⟨["u.zip"]⟩, FileData.zip [(["a.txt"], FileData.text "hi")])]
            (extractedPath ⟨["u.zip"]⟩) [(["a.txt"], FileData.text "hi")],
           (globFiles
             (extractAll [(⟨["u.zip"]⟩, FileData.zip [(["a.txt"], FileData.text "hi")])]
               (extractedPath ⟨["u.zip"]⟩) [(["a.txt"], FileData.text "hi")])
             (extractedPath ⟨["u.zip"]⟩)).map (fun _ => (none : Option DataFrame))) ∧
    ZipIngestor.ingest 1 [(⟨["u.zip"]⟩, FileData.zip [(["a.txt"], FileData.text "hi")])]
        ⟨["u.zip"]⟩ = .error .valueError :=
  C10_unsupported_contents_value_error 0 _ _ _ (by rfl) (by simp) (by decide)
    (by decide) (by decide) (by decide)

/-- The extraction directory of a path under `E` is itself under `E`. -/
theorem extractedPath_isUnder {E q : PathT} (h : isUnder E q = true) :
    isUnder E (extractedPath q) = true := by
  rcases isUnder_iff.mp h with ⟨t, htne, ht⟩
  apply isUnder_iff.mpr
  refine ⟨t.dropLast ++ [PathT.stem q], by simp, ?_⟩
  show q.components.dropLast ++ [PathT.stem q] = E.components ++ (t.dropLast ++ [PathT.stem q])
  rw [ht, List.dropLast_append_of_ne_nil _ htne, List.append_assoc]

/-- A path is never under its own extraction directory. -/
theorem not_isUnder_extractedPath_self (p : PathT) :
    isUnder (extractedPath p) p = false := by
  apply not_isUnder_of_length_le
  show p.components.length ≤ (p.components.dropLast ++ [PathT.stem p]).length
  rw [List.length_append, List.length_dropLast]
  simp only [List.length_cons, List.length_nil]
  omega

/-- If the per-file dispatch step reports the explicit no-files failure
for some path `r`, that failure was raised by a zip ingest at the
dispatched path or strictly below its extraction directory — provided
the zip ingestor itself has that property at this fuel. -/
theorem nff_file_of (n : Nat)
    (hz : ∀ (fs : Fs) (q r : PathT),
      ZipIngestor.ingest n fs q = .error (.noFilesFound r) →
      r = q ∨ isUnder (extractedPath q) r = true) :
    ∀ (fs : Fs) (q r : PathT),
      ingestFile n fs q = .error (.noFilesFound r) →
      r = q ∨ isUnder (extractedPath q) r = true := by
  intro fs q r h
  rw [ingestFile] at h
  rcases hk : (get_ingestor q).ingestor with _ | _ | _
  · rw [hk] at h
    exact hz fs q r h
  · rw [hk] at h
    unfold CSVIngestor.ingest at h
    rcases hg : getFile fs q with _ | d
    · rw [hg] at h
      simp at h
    · cases d with
      | text s =>
        rw [hg] at h
        simp at h
      | zip entries =>
        rw [hg] at h
        simp at h
  · rw [hk] at h
    unfold UnsupportedIngestor.ingest at h
    simp at h

/-- If the per-file ingestion list reports the explicit no-files failure
for some path `r`, it came from one of the listed paths: `r` is that
path or strictly below its extraction directory. -/
theorem nff_many_of (n : Nat)
    (hf : ∀ (fs : Fs) (q r : PathT),
      ingestFile n fs q = .error (.noFilesFound r) →
      r = q ∨ isUnder (extractedPath q) r = true) :
    ∀ (qs : List PathT) (fs : Fs) (r : PathT),
      ingestMany n fs qs = .error (.noFilesFound r) →
      ∃ q ∈ qs, r = q ∨ isUnder (extractedPath q) r = true := by
  intro qs
  induction qs with
  | nil =>
    intro fs r h
    rw [ingestMany_nil] at h
    simp at h
  | cons q qs ihq =>
    intro fs r h
    rw [ingestMany_cons] at h
    rcases hfe : ingestFile n fs q with e | ⟨fs1, df⟩
    · rw [hfe] at h
      simp only [Except.error.injEq] at h
      subst h
      exact ⟨q, by simp, hf fs q r hfe⟩
    · rw [hfe] at h
      rcases hm : ingestMany n fs1 qs with e | ⟨fs2, dfs⟩
      · simp only [hm, Except.error.injEq] at h
        subst h
        rcases ihq fs1 r hm with ⟨s, hs, hsp⟩
        exact ⟨s, by simp [hs], hsp⟩
      · simp only [hm] at h
        exact Except.noConfusion h

/-- A failing `pandas.concat` only ever raises `ValueError`. -/
theorem pd_concat_error_valueError {objs : List (Option DataFrame)} {e : IngestError}
    (h : pd_concat objs = .error e) : e = .valueError := by
  unfold pd_concat at h
  by_cases hdfe : ((objs.filterMap id).isEmpty : Bool) = true
  · simp only [hdfe, if_true] at h
    exact (Except.error.inj h).symm
  · have hdfe2 : ((objs.filterMap id).isEmpty : Bool) = false := by simpa using hdfe
    simp only [hdfe2, Bool.false_eq_true, if_false] at h
    exact Except.noConfusion h

/-- The explicit no-files failure a zip ingest reports names the archive
it was raised for: the ingested path itself, or a nested archive
strictly below its extraction directory. -/
theorem nff_zip :
    ∀ (fuel : Nat) (fs : Fs) (q r : PathT),
      ZipIngestor.ingest fuel fs q = .error (.noFilesFound r) →
      r = q ∨ isUnder (extractedPath q) r = true := by
  intro fuel
  induction fuel with
  | zero =>
    intro fs q r h
    rw [ZipIngestor.ingest_zero] at h
    simp at h
  | succ n ih =>
    intro fs q r h
    rcases hg : getFile fs q with _ | d
    · rw [ZipIngestor.ingest_not_zip (fun es hc => by rw [hg] at hc; cases hc)] at h
      simp at h
    · cases d with
      | text s =>
        rw [ZipIngestor.ingest_not_zip (fun es hc =>
          FileData.noConfusion (Option.some.inj (hg.symm.trans hc)))] at h
        simp at h
      | zip entries =>
        rw [ZipIngestor.ingest_succ hg] at h
        unfold zipPostExtraction at h
        by_cases hfe : (globFiles (extractAll fs (extractedPath q) entries)
            (extractedPath q)).isEmpty = true
        · simp only [hfe, if_true] at h
          simp only [Except.error.injEq, IngestError.noFilesFound.injEq] at h
          exact Or.inl h.symm
        · have hfe2 : (globFiles (extractAll fs (extractedPath q) entries)
              (extractedPath q)).isEmpty = false := by
            simpa using hfe
          simp only [hfe2, Bool.false_eq_true, if_false] at h
          rcases hm : ingestMany n (extractAll fs (extractedPath q) entries)
              (globFiles (extractAll fs (extractedPath q) entries) (extractedPath q))
            with e | ⟨fs2, dfs⟩
          · simp only [hm, Except.error.injEq] at h
            subst h
            rcases nff_many_of n (nff_file_of n ih) _ _ _ hm with ⟨s, hsmem, hsp⟩
            have hsu : isUnder (extractedPath q) s = true := mem_globFiles hsmem
            rcases hsp with rfl | hrs
            · exact Or.inr hsu
            · exact Or.inr (isUnder_trans (extractedPath_isUnder hsu) hrs)
          · simp only [hm] at h
            rcases hc : pd_concat dfs with e | df
            · simp only [hc, Except.error.injEq] at h
              subst h
              have := pd_concat_error_valueError hc
              cases this
            · simp only [hc] at h
              exact Except.noConfusion h

/-- C2: for every archive, `ZipIngestor.ingest` raises its explicit
"file not found" failure for that archive (the `FileNotFoundError`
whose message names the archive's path) exactly when extraction yields
a directory with zero regular files; this is the only failure the
archive ingestor raises itself — when files are found, any error is a
propagated one (a nested archive's own no-files failure, which names
the nested path, a reader error, or `pandas.concat`'s `ValueError`),
never this archive's. -/
theorem C2_empty_archive_file_not_found
    (fuel : Nat) (fs : Fs) (p : PathT) (entries : List (List String × FileData))
    (hget : getFile fs p = some (FileData.zip entries)) :
    ZipIngestor.ingest (fuel + 1) fs p = .error (.noFilesFound p) ↔
    globFiles (extractAll fs (extractedPath p) entries) (extractedPath p) = [] := by
  constructor
  · intro h
    by_contra hne
    have hfe2 : (globFiles (extractAll fs (extractedPath p) entries)
        (extractedPath p)).isEmpty = false := by
      rcases hgl : globFiles (extractAll fs (extractedPath p) entries) (extractedPath p)
        with _ | ⟨a, l⟩
      · exact absurd hgl hne
      · rfl
    rw [ZipIngestor.ingest_succ hget] at h
    unfold zipPostExtraction at h
    simp only [hfe2, Bool.false_eq_true, if_false] at h
    rcases hm : ingestMany fuel (extractAll fs (extractedPath p) entries)
        (globFiles (extractAll fs (extractedPath p) entries) (extractedPath p))
      with e | ⟨fs2, dfs⟩
    · simp only [hm, Except.error.injEq] at h
      subst h
      rcases nff_many_of fuel (nff_file_of fuel (nff_zip fuel)) _ _ _ hm
        with ⟨s, hsmem, hsp⟩
      have hsu : isUnder (extractedPath p) s = true := mem_globFiles hsmem
      have hpu : isUnder (extractedPath p) p = false := not_isUnder_extractedPath_self p
      rcases hsp with rfl | hrs
      · rw [hpu] at hsu
        cases hsu
      · have : isUnder (extractedPath p) p = true :=
          isUnder_trans (extractedPath_isUnder hsu) hrs
        rw [hpu] at this
        cases this
    · simp only [hm] at h
      rcases hc : pd_concat dfs with e | df
      · simp only [hc, Except.error.injEq] at h
        subst h
        have := pd_concat_error_valueError hc
        cases this
      · simp only [hc] at h
        exact Except.noConfusion h
  · intro h
    rw [ZipIngestor.ingest_succ hget]
    unfold zipPostExtraction
    simp only [h, List.isEmpty_nil, if_true]

/-- Witness for C2 at a concrete empty archive. -/
theorem C2_empty_archive_file_not_found_witness :
    ZipIngestor.ingest 1 [(⟨["e.zip"]⟩, FileData.zip [])] ⟨["e.zip"]⟩ =
        .error (.noFilesFound ⟨["e.zip"]⟩) ↔
      globFiles (extractAll [(⟨["e.zip"]⟩, FileData.zip [])]
        (extractedPath ⟨["e.zip"]⟩) []) (extractedPath ⟨["e.zip"]⟩) = [] :=
  C2_empty_archive_file_not_found 0 _ _ _ (by rfl)

/-- A one-element list is the singleton of its head. -/
theorem single_of_length_one {l : List String} (h : l.length = 1) :
    l = [l.headD ""] := by
  cases l with
  | nil => simp at h
  | cons a t =>
    cases t with
    | nil => rfl
    | cons b u => simp at h

/-- Being under a child directory implies being under the parent. -/
theorem isUnder_child {E : PathT} {a : String} {x : PathT}
    (h : isUnder ⟨E.components ++ [a]⟩ x = true) : isUnder E x = true := by
  rcases isUnder_iff.mp h with ⟨t, htne, ht⟩
  apply isUnder_iff.mpr
  refine ⟨[a] ++ t, by simp, ?_⟩
  rw [ht, List.append_assoc]

/-- A path cannot be under two distinct child directories of the same
directory. -/
theorem isUnder_distinct_child {E : PathT} {a b : String} {x : PathT}
    (ha : isUnder ⟨E.components ++ [a]⟩ x = true)
    (hb : isUnder ⟨E.components ++ [b]⟩ x = true) : a = b := by
  rcases isUnder_iff.mp ha with ⟨t, _, ht⟩
  rcases isUnder_iff.mp hb with ⟨u, _, hu⟩
  have : E.components ++ ([a] ++ t) = E.components ++ ([b] ++ u) := by
    rw [← List.append_assoc, ← List.append_assoc, ← ht, ← hu]
  have h2 : [a] ++ t = [b] ++ u := (List.append_right_inj E.components).mp this
  exact (List.cons.injEq a t b u ▸ congrArg id h2 : a :: t = b :: u) |> fun hh =>
    (List.cons.inj hh).1

/-- The leaf rows of an entry list are the concatenation of the leaf
rows of its entries' data, in order. -/
theorem leafRowsList_eq :
    ∀ es : List (List String × FileData),
      leafRowsList es = (es.map (fun e => leafRows e.2)).flatten := by
  intro es
  induction es with
  | nil => simp [leafRowsList]
  | cons e es ih =>
    obtain ⟨a, d⟩ := e
    simp [leafRowsList, ih]

/-- A row among the leaf rows of an entry list comes from one entry. -/
theorem mem_leafRowsList {es : List (List String × FileData)}
    {r : List (Option String)} (hr : r ∈ leafRowsList es) :
    ∃ e ∈ es, r ∈ leafRows e.2 := by
  induction es with
  | nil => simp [leafRowsList] at hr
  | cons e es ih =>
    obtain ⟨a, d⟩ := e
    rw [leafRowsList] at hr
    rcases List.mem_append.mp hr with h1 | h2
    · exact ⟨(a, d), by simp, h1⟩
    · rcases ih h2 with ⟨e', he', hre'⟩
      exact ⟨e', by simp [he'], hre'⟩

/-- Well-formed text data parses to a table with columns `c` and
rectangular rows. -/
theorem wf_text_rect {fuel : Nat} {c : List String} {s : String}
    (hwf : wfDataF fuel c (FileData.text s) = true) :
    (read_csv s).cols = c ∧ ∀ r ∈ (read_csv s).rows, r.length = c.length := by
  have hck : csvCheck c s = true := by
    cases fuel <;> simpa [wfDataF] using hwf
  rw [csvCheck, Bool.and_eq_true, decide_eq_true_eq, List.all_eq_true] at hck
  exact ⟨hck.1, fun r hr => by simpa using hck.2 r hr⟩

/-- Components of well-formed archive data. -/
theorem wf_zip_parts {m : Nat} {c : List String}
    {entries : List (List String × FileData)}
    (hwf : wfDataF (m + 1) c (FileData.zip entries) = true) :
    entries ≠ [] ∧ wfNames (entries.map entryName) = true ∧
    ∀ e ∈ entries, wfEntryShape e = true ∧ wfDataF m c e.2 = true := by
  rw [wfDataF, Bool.and_eq_true, Bool.and_eq_true, List.all_eq_true] at hwf
  obtain ⟨⟨hne, hnames⟩, hall⟩ := hwf
  refine ⟨by simpa using hne, hnames, ?_⟩
  intro e he
  have := hall e he
  rw [Bool.and_eq_true] at this
  exact this

/-- Every leaf row of well-formed data has the common width. -/
theorem leafRows_rect :
    ∀ (fuel : Nat) (c : List String) (d : FileData),
      wfDataF fuel c d = true → ∀ r ∈ leafRows d, r.length = c.length := by
  intro fuel
  induction fuel with
  | zero =>
    intro c d hwf r hr
    cases d with
    | text s =>
      rw [leafRows] at hr
      exact (wf_text_rect hwf).2 r hr
    | zip es => rw [wfDataF] at hwf; cases hwf
  | succ m ih =>
    intro c d hwf r hr
    cases d with
    | text s =>
      rw [leafRows] at hr
      exact (wf_text_rect hwf).2 r hr
    | zip es =>
      rw [leafRows] at hr
      obtain ⟨e, he, hre⟩ := mem_leafRowsList hr
      exact ih c e.2 ((wf_zip_parts hwf).2.2 e he).2 r hre

/-- Adding columns already present changes nothing. -/
theorem addCols_of_subset :
    ∀ {cs acc : List String}, (∀ x ∈ cs, x ∈ acc) → addCols acc cs = acc := by
  intro cs
  induction cs with
  | nil => intro acc _; rfl
  | cons x xs ih =>
    intro acc h
    have hx : x ∈ acc := h x (by simp)
    show addCols (if x ∈ acc then acc else acc ++ [x]) xs = acc
    rw [if_pos hx]
    exact ih (fun y hy => h y (by simp [hy]))

/-- Adding disjoint fresh columns appends them. -/
theorem addCols_append_nodup :
    ∀ {cs acc : List String}, (acc ++ cs).Nodup → addCols acc cs = acc ++ cs := by
  intro cs
  induction cs with
  | nil => intro acc _; simp [addCols]
  | cons x xs ih =>
    intro acc h
    have hx : x ∉ acc := by
      intro hmem
      have := List.disjoint_of_nodup_append h
      exact this hmem (by simp)
    show addCols (if x ∈ acc then acc else acc ++ [x]) xs = acc ++ (x :: xs)
    rw [if_neg hx]
    have h2 : ((acc ++ [x]) ++ xs).Nodup := by
      simpa [List.append_assoc] using h
    rw [ih h2, List.append_assoc]
    rfl

/-- The concatenation columns of tables sharing one duplicate-free
header are that header. -/
theorem concatCols_const {c : List String} (hc : c.Nodup) :
    ∀ {ts : List DataFrame}, ts ≠ [] → (∀ t ∈ ts, t.cols = c) →
      concatCols ts = c := by
  have haux : ∀ (ts : List DataFrame), (∀ t ∈ ts, t.cols = c) →
      List.foldl (fun a df => addCols a df.cols) c ts = c := by
    intro ts
    induction ts with
    | nil => intro _; rfl
    | cons t ts ih =>
      intro h
      rw [List.foldl_cons, h t (by simp), addCols_of_subset (fun x hx => hx)]
      exact ih (fun u hu => h u (by simp [hu]))
  intro ts hne h
  cases ts with
  | nil => exact absurd rfl hne
  | cons t ts =>
    unfold concatCols
    rw [List.foldl_cons, h t (by simp)]
    have : addCols [] c = c := by
      have := @addCols_append_nodup c [] (by simpa using hc)
      simpa using this
    rw [this]
    exact haux ts (fun u hu => h u (by simp [hu]))

/-- Re-expressing a rectangular row over its own duplicate-free columns
is the identity. -/
theorem reindexRow_self :
    ∀ (c : List String) (row : List (Option String)), c.Nodup →
      row.length = c.length → reindexRow c c row = row := by
  intro c
  induction c with
  | nil =>
    intro row _ hlen
    cases row with
    | nil => rfl
    | cons r rs => simp at hlen
  | cons x xs ih =>
    intro row hnd hlen
    cases row with
    | nil => simp at hlen
    | cons r rs =>
      have hx : x ∉ xs := (List.nodup_cons.mp hnd).1
      have hxs : xs.Nodup := (List.nodup_cons.mp hnd).2
      unfold reindexRow
      rw [List.map_cons]
      have hhead : (match idxOf? x (x :: xs) with
          | some i => (r :: rs).getD i none
          | none => none) = r := by
        simp [idxOf?]
      rw [hhead]
      have htail : ∀ col ∈ xs, (match idxOf? col (x :: xs) with
          | some i => (r :: rs).getD i none
          | none => none) =
          (match idxOf? col xs with
          | some i => rs.getD i none
          | none => none) := by
        intro col hcol
        have hne : ¬ (x = col) := fun hc => hx (hc ▸ hcol)
        show (match (if x = col then some 0 else (idxOf? col xs).map (· + 1)) with
          | some i => (r :: rs).getD i none
          | none => none) = _
        rw [if_neg hne]
        rcases hio : idxOf? col xs with _ | i
        · simp
        · simp
      rw [List.map_congr_left htail]
      have := ih rs hxs (by simpa using hlen)
      unfold reindexRow at this
      rw [this]

/-- Text data is a text constructor. -/
theorem isTextData_exists {d : FileData} (h : d.isTextData = true) :
    ∃ s, d = FileData.text s := by
  cases d with
  | text s => exact ⟨s, rfl⟩
  | zip es => rw [FileData.isTextData] at h; cases h

/-- Zip data is a zip constructor. -/
theorem isZipData_exists {d : FileData} (h : d.isZipData = true) :
    ∃ es, d = FileData.zip es := by
  cases d with
  | text s => rw [FileData.isZipData] at h; cases h
  | zip es => exact ⟨es, rfl⟩

/-- A well-formed entry has a singleton name whose extension matches its
data. -/
theorem wfEntryShape_parts {e : List String × FileData}
    (h : wfEntryShape e = true) :
    e.1 = [entryName e] ∧
    ((pySuffix (entryName e) = ".csv" ∧ e.2.isTextData = true) ∨
     (pySuffix (entryName e) = ".zip" ∧ e.2.isZipData = true)) := by
  rw [wfEntryShape, Bool.and_eq_true, Bool.or_eq_true, Bool.and_eq_true,
      Bool.and_eq_true, decide_eq_true_eq, decide_eq_true_eq,
      decide_eq_true_eq] at h
  exact ⟨single_of_length_one h.1, h.2⟩

/-- The directory names into which the zip-suffixed names extract. -/
def zipStems (names : List String) : List String :=
  (names.filter (fun n => decide (pySuffix n = ".zip"))).map pyStem

/-- Clash-free names are duplicate-free, and so are their extraction
directory names. -/
theorem wfNames_parts {names : List String} (h : wfNames names = true) :
    names.Nodup ∧ (zipStems names).Nodup := by
  rw [wfNames, decide_eq_true_eq] at h
  exact ⟨h.of_append_left, h.of_append_right⟩

/-- `zipStems` over a cons with a zip-suffixed head. -/
theorem zipStems_cons_zip {n : String} {ns : List String}
    (h : pySuffix n = ".zip") : zipStems (n :: ns) = pyStem n :: zipStems ns := by
  simp [zipStems, List.filter_cons, h]

/-- `zipStems` over a cons whose head has another suffix. -/
theorem zipStems_cons_not {n : String} {ns : List String}
    (h : ¬ pySuffix n = ".zip") : zipStems (n :: ns) = zipStems ns := by
  simp [zipStems, List.filter_cons, h]

/-- The extraction directory name of a zip-suffixed member name. -/
theorem mem_zipStems {n : String} {ns : List String} (hmem : n ∈ ns)
    (h : pySuffix n = ".zip") : pyStem n ∈ zipStems ns := by
  simp only [zipStems, List.mem_map, List.mem_filter]
  exact ⟨n, ⟨hmem, by simp [h]⟩, rfl⟩

/-- The absolute path of an archive entry below a destination
directory. -/
def targetOf (E : PathT) (e : List String × FileData) : PathT :=
  ⟨E.components ++ e.1⟩

/-- The target of a singleton-name entry, explicitly. -/
theorem targetOf_single {E : PathT} {e : List String × FileData}
    (h : e.1 = [entryName e]) :
    targetOf E e = ⟨E.components ++ [entryName e]⟩ := by
  rw [targetOf, h]

/-- A well-formed text file parses to the table with the common header
and its leaf rows. -/
theorem read_csv_eq_of_wf {m : Nat} {c : List String} {s : String}
    (hwf : wfDataF m c (FileData.text s) = true) :
    read_csv s = ⟨c, leafRows (FileData.text s)⟩ := by
  have h := (wf_text_rect hwf).1
  rw [leafRows]
  conv_lhs => rw [show read_csv s = ⟨(read_csv s).cols, (read_csv s).rows⟩ from rfl]
  rw [h]

/-- The zip registry entry resolves any `.zip`-suffixed path to the zip
ingestor. -/
theorem get_ingestor_kind_of_zip {q : PathT} (h : PathT.suffix q = ".zip") :
    (get_ingestor q).ingestor = IngestorKind.zipI := by
  rw [get_ingestor_kind, h, lookupExt_zip]
  rfl

/-- The CSV registry entry resolves any `.csv`-suffixed path to the CSV
ingestor. -/
theorem get_ingestor_kind_of_csv {q : PathT} (h : PathT.suffix q = ".csv") :
    (get_ingestor q).ingestor = IngestorKind.csvI := by
  rw [get_ingestor_kind, h, lookupExt_csv]
  rfl

/-- Ingesting the target paths of well-formed entries left to right:
each file is dispatched through the resolver by its suffix and ingested
by its own ingestor; text entries read back their common-header table,
nested archives recurse (through the supplied induction hypothesis),
and the filesystem grows only below the nested archives' own extraction
directories. -/
theorem ingestMany_wf_aux (m : Nat) (c : List String)
    (IH : ∀ (fs : Fs) (p : PathT) (inner : List (List String × FileData)),
      wfDataF m c (FileData.zip inner) = true →
      getFile fs p = some (FileData.zip inner) →
      globFiles fs (extractedPath p) = [] →
      ∃ gs, (∀ x ∈ gs, isUnder (extractedPath p) x.1 = true) ∧
        ZipIngestor.ingest m fs p =
          .ok (fs ++ gs, some ⟨c, leafRows (FileData.zip inner)⟩)) :
    ∀ (es : List (List String × FileData)) (E : PathT) (fs0 : Fs),
      (∀ e ∈ es, wfEntryShape e = true ∧ wfDataF m c e.2 = true) →
      (∀ e ∈ es, getFile fs0 (targetOf E e) = some e.2) →
      (∀ e ∈ es, e.2.isZipData = true →
        globFiles fs0 (extractedPath (targetOf E e)) = []) →
      (zipStems (es.map entryName)).Nodup →
      ∃ gs, (∀ x ∈ gs, ∃ e ∈ es, e.2.isZipData = true ∧
          isUnder (extractedPath (targetOf E e)) x.1 = true) ∧
        ingestMany m fs0 (es.map (targetOf E)) =
          .ok (fs0 ++ gs, es.map (fun e => some ⟨c, leafRows e.2⟩)) := by
  intro es
  induction es with
  | nil =>
    intro E fs0 _ _ _ _
    refine ⟨[], fun x hx => absurd hx (List.not_mem_nil x), ?_⟩
    rw [List.map_nil, ingestMany_nil, List.append_nil, List.map_nil]
  | cons e0 es ihes =>
    intro E fs0 hshape hget0 hglob hstems
    have hsh0 := hshape e0 (by simp)
    obtain ⟨hsingle, hdisj⟩ := wfEntryShape_parts hsh0.1
    have htgt : targetOf E e0 = ⟨E.components ++ [entryName e0]⟩ := targetOf_single hsingle
    have hsuf : PathT.suffix (targetOf E e0) = pySuffix (entryName e0) := by
      rw [htgt, suffix_mk_concat]
    have hnames_cons : (e0 :: es).map entryName = entryName e0 :: es.map entryName := rfl
    rcases hdisj with ⟨hcsv, htext⟩ | ⟨hzip, hzdata⟩
    · obtain ⟨s, hs⟩ := isTextData_exists htext
      have hkind := @get_ingestor_kind_of_csv (targetOf E e0) (by rw [hsuf, hcsv])
      have hcsvAt : csvTableAt fs0 (targetOf E e0) = some (read_csv s) := by
        unfold csvTableAt
        rw [hget0 e0 (by simp), hs]
      have hstems' : (zipStems (es.map entryName)).Nodup := by
        rw [hnames_cons, zipStems_cons_not (by rw [hcsv]; decide)] at hstems
        exact hstems
      obtain ⟨gs, hgs, hmany⟩ := ihes E fs0
        (fun e he => hshape e (by simp [he]))
        (fun e he => hget0 e (by simp [he]))
        (fun e he hz => hglob e (by simp [he]) hz)
        hstems'
      refine ⟨gs, ?_, ?_⟩
      · intro x hx
        rcases hgs x hx with ⟨e, he, hez, hu⟩
        exact ⟨e, by simp [he], hez, hu⟩
      · rw [List.map_cons, ingestMany_cons, ingestFile_csv hkind,
            CSVIngestor.ingest_text (by rw [hcsvAt]; rfl)]
        simp only [hcsvAt, hmany]
        rw [List.map_cons]
        have hread : read_csv s = ⟨c, leafRows e0.2⟩ := by
          rw [hs]
          exact read_csv_eq_of_wf (by rw [← hs]; exact hsh0.2)
        rw [hread]
    · obtain ⟨inner, hi⟩ := isZipData_exists hzdata
      have hkind := @get_ingestor_kind_of_zip (targetOf E e0) (by rw [hsuf, hzip])
      have hwfz : wfDataF m c (FileData.zip inner) = true := by
        rw [← hi]
        exact hsh0.2
      have hgetz : getFile fs0 (targetOf E e0) = some (FileData.zip inner) := by
        rw [hget0 e0 (by simp), hi]
      have hfreshz : globFiles fs0 (extractedPath (targetOf E e0)) = [] :=
        hglob e0 (by simp) (by rw [hi]; rfl)
      obtain ⟨gs0, hgs0, hingz⟩ := IH fs0 (targetOf E e0) inner hwfz hgetz hfreshz
      have hstem0 : extractedPath (targetOf E e0) =
          ⟨E.components ++ [pyStem (entryName e0)]⟩ := by
        rw [htgt, extractedPath_concat]
      have hstems0 : zipStems ((e0 :: es).map entryName) =
          pyStem (entryName e0) :: zipStems (es.map entryName) := by
        rw [hnames_cons, zipStems_cons_zip hzip]
      have hstem_notmem : pyStem (entryName e0) ∉ zipStems (es.map entryName) := by
        rw [hstems0] at hstems
        exact (List.nodup_cons.mp hstems).1
      have hstems' : (zipStems (es.map entryName)).Nodup := by
        rw [hstems0] at hstems
        exact (List.nodup_cons.mp hstems).2
      have hget1 : ∀ e ∈ es, getFile (fs0 ++ gs0) (targetOf E e) = some e.2 :=
        fun e he => getFile_append_left (hget0 e (by simp [he]))
      have hglob1 : ∀ e ∈ es, e.2.isZipData = true →
          globFiles (fs0 ++ gs0) (extractedPath (targetOf E e)) = [] := by
        intro e he hez
        rw [globFiles_append, hglob e (by simp [he]) hez, List.nil_append]
        apply globFiles_eq_nil_iff.mpr
        intro x hx
        obtain ⟨hsingleE, hdisjE⟩ := wfEntryShape_parts (hshape e (by simp [he])).1
        have hzipE : pySuffix (entryName e) = ".zip" := by
          rcases hdisjE with ⟨_, htE⟩ | ⟨hzE, _⟩
          · obtain ⟨s', hs'⟩ := isTextData_exists htE
            rw [hs'] at hez
            cases hez
          · exact hzE
        have hstemE : extractedPath (targetOf E e) =
            ⟨E.components ++ [pyStem (entryName e)]⟩ := by
          rw [targetOf_single hsingleE, extractedPath_concat]
        rw [hstemE]
        cases hxx : isUnder ⟨E.components ++ [pyStem (entryName e)]⟩ x.1 with
        | false => rfl
        | true =>
          exfalso
          have hx0 : isUnder ⟨E.components ++ [pyStem (entryName e0)]⟩ x.1 = true := by
            have := hgs0 x hx
            rw [hstem0] at this
            exact this
          have heq : pyStem (entryName e0) = pyStem (entryName e) :=
            isUnder_distinct_child hx0 hxx
          apply hstem_notmem
          rw [heq]
          exact mem_zipStems (List.mem_map_of_mem entryName he) hzipE
      obtain ⟨gs1, hgs1, hmany1⟩ := ihes E (fs0 ++ gs0)
        (fun e he => hshape e (by simp [he])) hget1 hglob1 hstems'
      refine ⟨gs0 ++ gs1, ?_, ?_⟩
      · intro x hx
        rcases List.mem_append.mp hx with h0 | h1
        · exact ⟨e0, by simp, by rw [hi]; rfl, hgs0 x h0⟩
        · rcases hgs1 x h1 with ⟨e, he, hez, hu⟩
          exact ⟨e, by simp [he], hez, hu⟩
      · rw [List.map_cons, ingestMany_cons, ingestFile_zip hkind, hingz]
        simp only [hmany1]
        rw [List.map_cons, List.append_assoc, hi]

/-- `pandas.concat` over the per-entry tables of well-formed entries:
all tables carry the common duplicate-free header, so the result is the
header with all leaf rows concatenated in entry order. -/
theorem pd_concat_wf {c : List String} {m : Nat}
    {entries : List (List String × FileData)} (hc : c.Nodup) (hne : entries ≠ [])
    (hall : ∀ e ∈ entries, wfDataF m c e.2 = true) :
    pd_concat (entries.map (fun e => some (⟨c, leafRows e.2⟩ : DataFrame))) =
      .ok ⟨c, leafRows (FileData.zip entries)⟩ := by
  have hmm : entries.map (fun e => some (⟨c, leafRows e.2⟩ : DataFrame)) =
      (entries.map (fun e => (⟨c, leafRows e.2⟩ : DataFrame))).map some := by
    rw [List.map_map]
    rfl
  have htsne : entries.map (fun e => (⟨c, leafRows e.2⟩ : DataFrame)) ≠ [] := by
    simpa using hne
  rw [hmm, pd_concat_map_some htsne]
  have hcols : ∀ t ∈ entries.map (fun e => (⟨c, leafRows e.2⟩ : DataFrame)),
      t.cols = c := by
    intro t ht
    rcases List.mem_map.mp ht with ⟨e, _, rfl⟩
    rfl
  have hcc : concatCols (entries.map (fun e => (⟨c, leafRows e.2⟩ : DataFrame))) = c :=
    concatCols_const hc htsne hcols
  rw [hcc]
  have hrows : (entries.map (fun e => (⟨c, leafRows e.2⟩ : DataFrame))).map
      (fun t => t.rows.map (reindexRow t.cols c)) =
      entries.map (fun e => leafRows e.2) := by
    rw [List.map_map]
    apply List.map_congr_left
    intro e he
    show (leafRows e.2).map (reindexRow c c) = leafRows e.2
    have hid : (leafRows e.2).map (reindexRow c c) = (leafRows e.2).map id :=
      List.map_congr_left (fun r hr =>
        reindexRow_self c r hc (leafRows_rect m c e.2 (hall e he) r hr))
    rw [hid, List.map_id]
  rw [hrows, ← leafRowsList_eq, leafRows]

/-- Well-formed archives ingest to the common-header table of all their
transitively contained text files' rows, in first-seen order, growing
the filesystem only below their extraction directory; each extracted
file (also in nested archives) is dispatched through the resolver and
ingested by its own ingestor. -/
theorem zip_wf_ingest :
    ∀ (fuel : Nat) (c : List String) (fs : Fs) (p : PathT)
      (entries : List (List String × FileData)),
      c.Nodup →
      wfDataF fuel c (FileData.zip entries) = true →
      getFile fs p = some (FileData.zip entries) →
      globFiles fs (extractedPath p) = [] →
      ∃ gs, (∀ x ∈ gs, isUnder (extractedPath p) x.1 = true) ∧
        ZipIngestor.ingest fuel fs p =
          .ok (fs ++ gs, some ⟨c, leafRows (FileData.zip entries)⟩) := by
  intro fuel
  induction fuel with
  | zero =>
    intro c fs p entries _ hwf _ _
    rw [wfDataF] at hwf
    cases hwf
  | succ m ih =>
    intro c fs p entries hc hwf hget hfresh
    obtain ⟨hne, hnames, hall⟩ := wf_zip_parts hwf
    have hnodupN : (entries.map entryName).Nodup := (wfNames_parts hnames).1
    have hzsnodup : (zipStems (entries.map entryName)).Nodup := (wfNames_parts hnames).2
    have hsingles : ∀ e ∈ entries, e.1 = [entryName e] :=
      fun e he => (wfEntryShape_parts (hall e he).1).1
    have hpaths : ∀ e ∈ entries, e.1 ≠ [] := by
      intro e he
      rw [hsingles e he]
      simp
    have hfstnodup : (entries.map Prod.fst).Nodup := by
      have hrw : entries.map Prod.fst = (entries.map entryName).map (fun n => [n]) := by
        rw [List.map_map]
        apply List.map_congr_left
        intro e he
        exact hsingles e he
      rw [hrw]
      exact hnodupN.map (fun a b hab => by simpa using hab)
    obtain ⟨hext, hfound⟩ := zip_extract_setup hpaths hfstnodup hfresh
    have hfound2 : globFiles (extractAll fs (extractedPath p) entries) (extractedPath p) =
        entries.map (targetOf (extractedPath p)) := hfound
    have hnofile : ∀ x ∈ fs, isUnder (extractedPath p) x.1 = false :=
      globFiles_eq_nil_iff.mp hfresh
    have hget1 : ∀ e ∈ entries,
        getFile (extractAll fs (extractedPath p) entries)
          (targetOf (extractedPath p) e) = some e.2 := by
      intro e he
      rw [hext]
      have hnone : getFile fs (targetOf (extractedPath p) e) = none :=
        getFile_none_of_under hnofile (isUnder_append (hpaths e he))
      rw [getFile_append_right hnone]
      exact getFile_entryPaths hfstnodup he
    have hglob1 : ∀ e ∈ entries, e.2.isZipData = true →
        globFiles (extractAll fs (extractedPath p) entries)
          (extractedPath (targetOf (extractedPath p) e)) = [] := by
      intro e he _
      rw [hext, globFiles_append]
      have hchild : extractedPath (targetOf (extractedPath p) e) =
          ⟨(extractedPath p).components ++ [pyStem (entryName e)]⟩ := by
        rw [targetOf_single (hsingles e he), extractedPath_concat]
      have h1 : globFiles fs (extractedPath (targetOf (extractedPath p) e)) = [] := by
        apply globFiles_eq_nil_iff.mpr
        intro x hxmem
        cases hxx : isUnder (extractedPath (targetOf (extractedPath p) e)) x.1 with
        | false => rfl
        | true =>
          exfalso
          have hE : isUnder (extractedPath p) x.1 = true := by
            rw [hchild] at hxx
            exact isUnder_child hxx
          rw [hnofile x hxmem] at hE
          cases hE
      have h2 : globFiles (entryPaths (extractedPath p) entries)
          (extractedPath (targetOf (extractedPath p) e)) = [] := by
        apply globFiles_eq_nil_iff.mpr
        intro x hxmem
        rcases List.mem_map.mp hxmem with ⟨e', he', rfl⟩
        apply not_isUnder_of_length_le
        rw [hchild]
        show ((extractedPath p).components ++ e'.1).length ≤
          ((extractedPath p).components ++ [pyStem (entryName e)]).length
        rw [List.length_append, List.length_append, hsingles e' he']
        simp
      rw [h1, h2]
      rfl
    obtain ⟨gs', hgs', hmany⟩ := ingestMany_wf_aux m c
      (fun fsx px inner hwfx hgetx hfrx => ih c fsx px inner hc hwfx hgetx hfrx)
      entries (extractedPath p) (extractAll fs (extractedPath p) entries)
      (fun e he => hall e he) hget1 hglob1 hzsnodup
    have hall2 : ∀ e ∈ entries, wfDataF m c e.2 = true := fun e he => (hall e he).2
    have hpc := pd_concat_wf hc hne hall2
    refine ⟨entryPaths (extractedPath p) entries ++ gs', ?_, ?_⟩
    · intro x hxmem
      rcases List.mem_append.mp hxmem with h0 | h1
      · rcases List.mem_map.mp h0 with ⟨e, he, rfl⟩
        exact isUnder_append (hpaths e he)
      · rcases hgs' x h1 with ⟨e, he, _, hu⟩
        have hchild : extractedPath (targetOf (extractedPath p) e) =
            ⟨(extractedPath p).components ++ [pyStem (entryName e)]⟩ := by
          rw [targetOf_single (hsingles e he), extractedPath_concat]
        rw [hchild] at hu
        exact isUnder_child hu
    · rw [ZipIngestor.ingest_succ hget]
      unfold zipPostExtraction
      have hempty : (entries.map (targetOf (extractedPath p))).isEmpty = false := by
        cases entries with
        | nil => exact absurd rfl hne
        | cons a l => rfl
      simp only [hfound2, hempty, Bool.false_eq_true, if_false]
      simp only [hmany]
      simp only [hpc]
      rw [hext, List.append_assoc]

/-- C6: for every well-formed `.zip` archive that contains another
`.zip` archive (leaf CSV files all sharing one duplicate-free header,
entry names clash-free, fresh extraction directories), ingestion
resolves the nested archives recursively — each extracted file is
dispatched through the resolver and ingested by its own ingestor — and
the final table carries the common header and exactly the concatenation
of all transitively contained files' rows in first-seen order. -/
theorem C6_nested_archives_recursive
    (fuel : Nat) (c : List String) (fs : Fs) (p : PathT)
    (entries : List (List String × FileData))
    (hc : c.Nodup)
    (hwf : wfDataF fuel c (FileData.zip entries) = true)
    (_hnested : entries.any (fun e => e.2.isZipData) = true)
    (hget : getFile fs p = some (FileData.zip entries))
    (hfresh : globFiles fs (extractedPath p) = []) :
    ∃ gs, (∀ x ∈ gs, isUnder (extractedPath p) x.1 = true) ∧
      ZipIngestor.ingest fuel fs p =
        .ok (fs ++ gs, some ⟨c, leafRows (FileData.zip entries)⟩) :=
  zip_wf_ingest fuel c fs p entries hc hwf hget hfresh

/-- Witness for C6 at a concrete archive holding one CSV file and one
nested archive with another CSV file. -/
theorem C6_nested_archives_recursive_witness :
    ∃ gs, (∀ x ∈ gs, isUnder (extractedPath ⟨["o.zip"]⟩) x.1 = true) ∧
      ZipIngestor.ingest 2
        [(⟨["o.zip"]⟩, FileData.zip
          [(["a.csv"], FileData.text "h\n1"),
           (["b.zip"], FileData.zip [(["c.csv"], FileData.text "h\n2")])])]
        ⟨["o.zip"]⟩ =
        .ok ([(⟨["o.zip"]⟩, FileData.zip
          [(["a.csv"], FileData.text "h\n1"),
           (["b.zip"], FileData.zip [(["c.csv"], FileData.text "h\n2")])])] ++ gs,
          some ⟨["h"], leafRows (FileData.zip
            [(["a.csv"], FileData.text "h\n1"),
             (["b.zip"], FileData.zip [(["c.csv"], FileData.text "h\n2")])])⟩) :=
  C6_nested_archives_recursive 2 ["h"] _ _ _ (by decide) (by decide) (by decide)
    (by rfl) (by decide)
